import Mathlib

/-!
# Verification of the livenation-scraper core pipeline

Shallow embedding of the extraction-and-reconciliation pipeline:
the LLM extraction post-processing (`src/utils/llm.ts`), the record
builder and content normalizer (`src/services/scraper.service.ts`),
the ledger store (`storage.service.ts`, `index.ts`) and the Google
Sheets reconciler (`google-sheets.service.ts`).  Pure functions are
translated directly; effectful steps (HTTP requests, file writes,
sheet writes) are modelled by passing their outcomes explicitly.
-/

/-- `Contact` from `src/types/index.ts`. -/
structure Contact where
  name : String
  email : String
deriving DecidableEq, Repr

/-- `ExtractedEvent` from `src/utils/llm.ts`. -/
structure ExtractedEvent where
  date : String
  location : String
deriving DecidableEq, Repr

/-- `ExtractedInfo` from `src/utils/llm.ts` / `src/types/index.ts`:
the optional `contact?` field becomes an `Option`. -/
structure ExtractedInfo where
  events : List ExtractedEvent
  contact : Option Contact
deriving DecidableEq, Repr

/-- `Concert` from `src/types/index.ts`. -/
structure Concert where
  title : String
  dates : List String
  location : String
  contact : Option Contact
  url : String
deriving DecidableEq, Repr

/-- `ConcertLink` from `src/types/index.ts`. -/
structure ConcertLink where
  url : String
  title : String
deriving DecidableEq, Repr

/-! ## Character and string helpers

JavaScript string operations used by the pipeline are re-implemented
over `List Char` with structural recursion, so that every definition
evaluates inside the kernel.  Lengths count characters; the repo's
data is plain Latin text, for which this coincides with JavaScript's
UTF-16 code-unit length. -/

/-- The space character, `' '` (U+0020). -/
def spaceChar : Char := Char.ofNat 32

/-- `\d` of a JavaScript regular expression: an ASCII digit. -/
def isDigitChar (c : Char) : Bool := Char.ofNat 48 ≤ c && c ≤ Char.ofNat 57

/-- `[a-z]` under the `i` flag of a JavaScript regular expression
(no `u` flag): exactly the ASCII letters. -/
def isAsciiLetter (c : Char) : Bool :=
  (Char.ofNat 97 ≤ c && c ≤ Char.ofNat 122) || (Char.ofNat 65 ≤ c && c ≤ Char.ofNat 90)

/-- `String.prototype.includes(c)` for a single-character needle. -/
def strContainsChar (s : String) (c : Char) : Bool := s.data.contains c

/-- `needle` occurs as a contiguous run inside `hay`. -/
def listContainsSub (needle : List Char) : List Char → Bool
  | [] => needle.isEmpty
  | c :: rest => needle.isPrefixOf (c :: rest) || listContainsSub needle rest

/-- `String.prototype.includes(pat)` for a string needle. -/
def strContainsSub (s pat : String) : Bool := listContainsSub pat.data s.data

/-- `String.prototype.split(' ')` on the character level: splits at every
single space, keeping empty fragments (as JavaScript does). -/
def splitOnSpaceChars : List Char → List (List Char)
  | [] => [[]]
  | c :: rest =>
    let r := splitOnSpaceChars rest
    if c = spaceChar then [] :: r
    else
      match r with
      | [] => [[c]]
      | h :: t => (c :: h) :: t

/-- `String.prototype.split(' ')`. -/
def splitOnSpace (s : String) : List String :=
  (splitOnSpaceChars s.data).map fun cs => ⟨cs⟩

/-- `Array.prototype.join(sep)` for an array of strings. -/
def joinStrings (sep : String) : List String → String
  | [] => ""
  | [x] => x
  | x :: y :: rest => x ++ sep ++ joinStrings sep (y :: rest)

/-- ASCII lower-casing, as `String.prototype.toLowerCase()` acts on the
Latin text this pipeline handles. -/
def asciiLowerChar (c : Char) : Char :=
  if Char.ofNat 65 ≤ c && c ≤ Char.ofNat 90 then Char.ofNat (c.toNat + 32) else c

/-- `String.prototype.toLowerCase()` (ASCII fragment). -/
def strLower (s : String) : String := ⟨s.data.map asciiLowerChar⟩

/-- Whitespace removed by `String.prototype.trim()` (the ASCII cases). -/
def isWsChar (c : Char) : Bool :=
  c.toNat = 32 || c.toNat = 9 || c.toNat = 10 || c.toNat = 13 || c.toNat = 12 || c.toNat = 11

/-- `String.prototype.trim()`. -/
def strTrim (s : String) : String :=
  ⟨((s.data.dropWhile isWsChar).reverse.dropWhile isWsChar).reverse⟩

/-- `String.prototype.substring(0, n)`. -/
def strTake (s : String) (n : Nat) : String := ⟨s.data.take n⟩

/-- Decimal digits to a number (digits are already checked elsewhere). -/
def digitsToNat (cs : List Char) : Nat :=
  cs.foldl (fun acc c => acc * 10 + (c.toNat - 48)) 0

/-- Keep the first occurrence of every element, in order: the observable
content of `[...new Set(array)]`, and of the string-keyed insertion order
of a JavaScript object literal. -/
def dedupKeepFirst [DecidableEq α] : List α → List α
  | [] => []
  | a :: as => a :: dedupKeepFirst (as.filter (fun b => b ≠ a))
termination_by l => l.length
decreasing_by
  simp only [List.length_cons]
  exact Nat.lt_succ_of_le (List.length_filter_le _ _)

/-! ## Extraction Engine (`src/utils/llm.ts`, `extractInfoWithLLM`)

The per-event validation filter, the contact validation, the sentinel
substitution and the retry loop.  The LLM request itself is an external
service; each attempt's outcome is passed in as an oracle indexed by the
retry counter. -/

/-- After the month letters: one space then exactly 4 digits and the end
of the string (`" \d{4}$"`). -/
def matchYearPart : List Char → Bool
  | c2 :: r4 => decide (c2 = spaceChar) && decide (r4.length = 4) && r4.all isDigitChar
  | [] => false

/-- After the day digits: one space, a run of ≥ 1 ASCII letters, then the
year part (`" [a-z]+ \d{4}$"`, `i` flag). -/
def matchAfterDay : List Char → Bool
  | c :: r2 =>
    decide (c = spaceChar) && decide (1 ≤ (r2.takeWhile isAsciiLetter).length) &&
      matchYearPart (r2.dropWhile isAsciiLetter)
  | [] => false

/-- The anchored test `event.date.match(/^\d{1,2} [a-z]+ \d{4}$/i)`:
a run of 1–2 digits, one space, a run of ≥ 1 ASCII letters, one space,
exactly 4 digits.  Greedy matching with backtracking coincides with
maximal-run scanning here because digits/letters never match the space
that must follow them. -/
def matchesDatePattern (s : String) : Bool :=
  (decide (1 ≤ (s.data.takeWhile isDigitChar).length) &&
      decide ((s.data.takeWhile isDigitChar).length ≤ 2)) &&
    matchAfterDay (s.data.dropWhile isDigitChar)

/-- The spec's reading of the same pattern: "1–2 digits, space, alphabetic
month token, space, 4 digits" as an explicit decomposition of the string. -/
def SpecDatePattern (s : String) : Prop :=
  ∃ d m y : List Char,
    s.data = d ++ (spaceChar :: (m ++ (spaceChar :: y))) ∧
    1 ≤ d.length ∧ d.length ≤ 2 ∧ d.all isDigitChar = true ∧
    1 ≤ m.length ∧ m.all isAsciiLetter = true ∧
    y.length = 4 ∧ y.all isDigitChar = true

/-- The per-event filter of `extractInfoWithLLM` (`llm.ts` lines 175–186):
the date must match the pattern and the location must contain a comma.
The `typeof … === 'string'` guards hold by construction in the typed model. -/
def isValidEvent (e : ExtractedEvent) : Bool :=
  matchesDatePattern e.date && strContainsChar e.location (Char.ofNat 44)

/-- `parsed.events.filter(...)`. -/
def validateEvents (events : List ExtractedEvent) : List ExtractedEvent :=
  events.filter isValidEvent

/-- The sentinel placeholder event (`llm.ts` line 204). -/
def sentinelEvent : ExtractedEvent :=
  { date := "Date not found", location := "Location not found" }

/-- The post-parse processing of a successfully parsed response
(`llm.ts` lines 167–206): filter the events, drop an invalid contact,
and substitute the sentinel when no valid event remains. -/
def processParsed (p : ExtractedInfo) : ExtractedInfo :=
  let kept := validateEvents p.events
  let contact := match p.contact with
    | some c => if strContainsChar c.email (Char.ofNat 64) then some c else none
    | none => none
  { events := if kept.isEmpty then [sentinelEvent] else kept, contact := contact }

/-- Outcome of one request attempt, as seen by `extractInfoWithLLM`:
`api` is a request-level transport failure (or the falsy-response throw),
`badJson` a response the inner `try` rejects (`JSON.parse` throws, or
`events` is not an array), `ok p` a parsed response. -/
inductive LLMOutcome where
  | api : LLMOutcome
  | badJson : LLMOutcome
  | ok : ExtractedInfo → LLMOutcome
deriving DecidableEq, Repr

/-- `MAX_RETRIES` (`llm.ts` line 110). -/
def MAX_RETRIES : Nat := 3

/-- An outcome the code retries (both share the single `retryCount`). -/
def LLMOutcome.transient : LLMOutcome → Bool
  | .api => true
  | .badJson => true
  | .ok _ => false

/-- Errors `extractInfoWithLLM` can propagate. -/
inductive ExtractErr where
  | config : ExtractErr
  | parse : ExtractErr
  | api : ExtractErr
deriving DecidableEq, Repr

/-- The error propagated once retries are exhausted for a given outcome. -/
def LLMOutcome.errOf : LLMOutcome → ExtractErr
  | .api => ExtractErr.api
  | .badJson => ExtractErr.parse
  | .ok _ => ExtractErr.config

/-- `extractInfoWithLLM(text, retryCount)` (`llm.ts` lines 101–230),
instrumented with the number of request attempts it issues (second
component).  `hasKey` models `config.openai.apiKey` being set; `oracle n`
is the outcome of the attempt made at `retryCount = n`.  A transient
outcome recurses with `retryCount + 1` while `retryCount < MAX_RETRIES`
(the inner parse-error branch and the outer catch use the same counter),
and otherwise rethrows the error. -/
def extractRun (hasKey : Bool) (oracle : Nat → LLMOutcome) (retryCount : Nat) :
    Except ExtractErr ExtractedInfo × Nat :=
  if !hasKey then (Except.error ExtractErr.config, 0)
  else
    match oracle retryCount with
    | .ok p => (Except.ok (processParsed p), 1)
    | .api =>
      if h : retryCount < MAX_RETRIES then
        let r := extractRun hasKey oracle (retryCount + 1)
        (r.1, r.2 + 1)
      else (Except.error ExtractErr.api, 1)
    | .badJson =>
      if h : retryCount < MAX_RETRIES then
        let r := extractRun hasKey oracle (retryCount + 1)
        (r.1, r.2 + 1)
      else (Except.error ExtractErr.parse, 1)
termination_by MAX_RETRIES + 1 - retryCount
decreasing_by
  all_goals simp only [MAX_RETRIES] at *; omega

/-! ## Record Builder (`src/services/scraper.service.ts`)

`createConcertObjects` groups events by location (a string-keyed object
literal, i.e. first-seen insertion order — every location string the
filter lets through contains a comma, so JavaScript's array-index key
reordering never applies) and sorts each group's dates with `sortDates`.

`sortDates` compares `new Date(a.split(' ').reverse().join('-'))`
timestamps.  `new Date` on a string is specified by ECMA-262 only for the
Date Time String Format (`YYYY-MM-DD…`); a reversed `"DD monthname YYYY"`
string like `"2025-maart-14"` does not conform, and for the Dutch month
names used in the theorems below (maart, mei, oktober — whose first three
letters match no English month name, the only heuristic V8's fallback
parser applies to words) the runtime yields an invalid date, i.e. `NaN`.
We model the timestamp as `Option Nat`: `some k` with `k` an
order-preserving encoding of the calendar day, `none` for `NaN`.
`Array.prototype.sort` coerces a `NaN` comparator result to `±0`
(ECMA-262 SortCompare), i.e. "leave the pair in its current order", and
is required to be stable, which the insertion model below reproduces. -/

/-- `s.split(' ').reverse().join('-')`. -/
def reverseJoinDash (s : String) : String :=
  joinStrings "-" (splitOnSpace s).reverse

/-- `new Date(str).getTime()` restricted to the ECMA-262 Date Time String
Format's date-only form `YYYY-MM-DD`; any other string is an invalid date
(`none`, the model of `NaN`).  The encoding `y*10000 + m*100 + d` is
monotone in the calendar day, which is all the comparator observes. -/
def jsDateValueOfString (s : String) : Option Nat :=
  match (s.data.splitOn (Char.ofNat 45)).map (fun cs => (⟨cs⟩ : String)) with
  | [y, m, d] =>
    if y.length = 4 && y.data.all isDigitChar &&
        m.length = 2 && m.data.all isDigitChar &&
        d.length = 2 && d.data.all isDigitChar &&
        decide (1 ≤ digitsToNat m.data) && decide (digitsToNat m.data ≤ 12) &&
        decide (1 ≤ digitsToNat d.data) && decide (digitsToNat d.data ≤ 31) then
      some (digitsToNat y.data * 10000 + digitsToNat m.data * 100 + digitsToNat d.data)
    else none
  | _ => none

/-- The sort key of `sortDates`: `new Date(a.split(' ').reverse().join('-')).getTime()`. -/
def jsDateKey (s : String) : Option Nat := jsDateValueOfString (reverseJoinDash s)

/-- "`a` may stay before `b`" under the comparator
`(a, b) => dateA.getTime() - dateB.getTime()`: true when the comparator
returns `≤ 0`, and also when it returns `NaN` (coerced to `0`). -/
def dateLe (a b : String) : Bool :=
  match jsDateKey a, jsDateKey b with
  | some x, some y => decide (x ≤ y)
  | _, _ => true

/-- Insert `a` after every element it may stay after: the insertion step
of a stable sort. -/
def insertStable (le : α → α → Bool) (a : α) : List α → List α
  | [] => [a]
  | b :: bs => if le b a then b :: insertStable le a bs else a :: b :: bs

/-- Stable sort consistent with `le` (each element is inserted after the
previously-placed elements it compares equal to, keeping original order). -/
def sortStable (le : α → α → Bool) (l : List α) : List α :=
  l.foldl (fun acc a => insertStable le a acc) []

/-- `ScraperService.sortDates` (`scraper.service.ts` lines 210–216). -/
def sortDates (dates : List String) : List String := sortStable dateLe dates

/-- Modelled from the spec: parse a `"DD monthname YYYY"` date string with
the Dutch month names of the documented format into a comparable calendar
value (same monotone `y*10000 + m*100 + d` encoding). -/
def specCalendarValue (s : String) : Option Nat :=
  let months := ["januari", "februari", "maart", "april", "mei", "juni",
    "juli", "augustus", "september", "oktober", "november", "december"]
  match splitOnSpace s with
  | [d, m, y] =>
    match months.indexOf? m with
    | some i =>
      if 1 ≤ d.length && d.length ≤ 2 && d.data.all isDigitChar &&
          y.length = 4 && y.data.all isDigitChar then
        some (digitsToNat y.data * 10000 + (i + 1) * 100 + digitsToNat d.data)
      else none
    | none => none
  | _ => none

/-- One step of the `reduce` in `createConcertObjects`: push the date onto
the location's bucket, creating the bucket (at the end, i.e. in first-seen
key order) when absent. -/
def addEvent (acc : List (String × List String)) (e : ExtractedEvent) :
    List (String × List String) :=
  if acc.any (fun kv => kv.1 = e.location) then
    acc.map (fun kv => if kv.1 = e.location then (kv.1, kv.2 ++ [e.date]) else kv)
  else acc ++ [(e.location, [e.date])]

/-- `events.reduce(...)` followed by `Object.entries`: the buckets in
first-seen location order. -/
def groupByLocation (events : List ExtractedEvent) : List (String × List String) :=
  events.foldl addEvent []

/-- `ScraperService.createConcertObjects` (`scraper.service.ts` lines 187–208). -/
def createConcertObjects (link : ConcertLink) (info : ExtractedInfo) : List Concert :=
  (groupByLocation info.events).map fun kv =>
    { title := link.title, dates := sortDates kv.2, location := kv.1,
      contact := info.contact, url := link.url }

/-! ## Content Normalizer (`scraper.service.ts`, `extractPageContent`,
lines 97–167)

The DOM query is the external capability; its result — the trimmed-able
text content of every element matched by the selector list, in selector
then document order — is the input list.  The pure pipeline afterwards:
keep fragments of trimmed length in (10, 500) with more than 2
space-separated words and no boilerplate marker, de-duplicate keeping
first occurrences, cap to 50 fragments, join with newlines, and truncate
to 8000 characters plus an ellipsis. -/

/-- The boilerplate test on the lower-cased fragment. -/
def hasBoilerplate (s : String) : Bool :=
  let l := strLower s
  strContainsSub l "cookie" || strContainsSub l "menu" || strContainsSub l "navigation" ||
    strContainsSub l "footer" || strContainsSub l "header"

/-- The keep-condition applied to one already-trimmed fragment `text`:
`text && text.length > 10 && text.length < 500` and the inner filter. -/
def keepFragment (s : String) : Bool :=
  !(s = "") && decide (10 < s.length) && decide (s.length < 500) &&
    !hasBoilerplate s && decide (2 < (splitOnSpace s).length)

/-- The character budget (`maxLength`, line 159). -/
def maxContentLength : Nat := 8000

/-- `ScraperService.extractPageContent` after the DOM query: `texts` are
the matched elements' text contents. -/
def extractPageContent (texts : List String) : String :=
  let relevantElements := (texts.map strTrim).filter keepFragment
  let uniqueContent := dedupKeepFirst relevantElements
  let limitedContent := uniqueContent.take 50
  let fullText := joinStrings "\n" limitedContent
  if decide (maxContentLength < fullText.length) then
    strTake fullText maxContentLength ++ "..."
  else fullText

/-! ## Ledger Store (`storage.service.ts`, and the merge in `index.ts` /
the service-based main)

`loadExistingConcerts` parses the ledger file and swallows every failure;
`saveConcerts` performs the file write inside a `try` whose `catch` only
logs.  The merge `[...existingConcerts, ...newConcerts].sort(comparator)`
reads `a.dates[0].split(' ')` in the comparator: when `dates` is `[]`,
`dates[0]` is `undefined` and `.split` throws a `TypeError`.  The sort of
an array of length ≤ 1 performs no comparison (so nothing is evaluated
and nothing throws); for length ≥ 2 every element takes part in at least
one comparison, so one record with empty `dates` makes the merge throw
(`none`) before anything is saved. -/

/-- `StorageService.loadExistingConcerts` (`browser.service.ts` lines
57–67): `none` = file absent, `some (.error e)` = read/parse threw,
`some (.ok l)` = parsed list, returned with no validation. -/
def loadExistingConcerts (file : Option (Except String (List Concert))) : List Concert :=
  match file with
  | none => []
  | some (Except.error _) => []
  | some (Except.ok l) => l

/-- `StorageService.saveConcerts` (`browser.service.ts` lines 69–76):
the `fs.writeFileSync` outcome is the argument; the surrounding
`try/catch` logs a failure and returns normally. -/
def saveConcerts (writeResult : Except String Unit) : Except String Unit :=
  match writeResult with
  | Except.ok _ => Except.ok ()
  | Except.error _ => Except.ok ()

/-- The ledger comparator's key: `new Date(c.dates[0].split(' ').reverse().join('-'))`,
defined only when `dates` is non-empty. -/
def ledgerLe (a b : Concert) : Bool :=
  dateLe (a.dates.getD 0 "") (b.dates.getD 0 "")

/-- `[...existing, ...fresh].sort(comparator)` (`index.ts` lines 243–247):
`none` models the comparator throwing. -/
def mergeAndSort (existing fresh : List Concert) : Option (List Concert) :=
  let all := existing ++ fresh
  if all.length ≤ 1 then some all
  else if all.all (fun c => !c.dates.isEmpty) then some (sortStable ledgerLe all)
  else none

/-! ## Reconciler (`google-sheets.service.ts`, `syncConcerts`, lines 522–687)

The remote tab is a list of rows (lists of cell strings); row 1 of the
sheet is position 0 of the list.  The initial range read maps each row
with a non-empty URL cell (`if (row && row[5])`) to its 1-based sheet row,
later rows overwriting earlier ones (`Map.set`); the classification then
compares the six serialized fields against the stored row's first six
cells (`JSON.stringify` on lists of strings is injective, so the
comparison is list equality). -/

/-- `row[5]`, the URL cell (`""` when the row is shorter). -/
def rowUrl (row : List String) : String := row.getD 5 ""

/-- Scan rows (starting at sheet row `i`) for the last row whose URL cell
is `u` and non-empty: the content of the `Map` built by the loop at lines
547–554, where later `Map.set` calls overwrite earlier ones. -/
def scanRows (i : Nat) (l : List (List String)) (u : String) : Option (Nat × List String) :=
  match l with
  | [] => none
  | row :: rest =>
    match scanRows (i + 1) rest u with
    | some v => some v
    | none => if u ≠ "" ∧ rowUrl row = u then some (i, row) else none

/-- `existingConcerts.get(u)`: the map skips the header row (the loop
starts at index 1) and holds `{row: i + 1, data: row}`. -/
def lookupUrl (st : List (List String)) (u : String) : Option (Nat × List String) :=
  match st with
  | [] => none
  | _ :: rest => scanRows 2 rest u

/-- The six serialized fields of a record (`newData`, lines 586–593):
title, comma-joined dates, location, contact name, contact email, url. -/
def serialize6 (c : Concert) : List String :=
  [c.title, joinStrings ", " c.dates, c.location,
    (c.contact.map Contact.name).getD "", (c.contact.map Contact.email).getD "", c.url]

/-- The header row (lines 565–573). -/
def sheetHeaders : List String :=
  ["Title", "Dates", "Location", "Contact Name", "Contact Email", "URL", "Last Updated"]

/-- The records classified `new`: no existing row for their url (lines
580–583). -/
def newConcertsOf (st : List (List String)) (cs : List Concert) : List Concert :=
  cs.filter (fun c => (lookupUrl st c.url).isNone)

/-- The records classified `updated`, with their target sheet row: an
existing row whose first six cells differ from the serialized record
(lines 584–602).  A record with an equal stored row is in neither list. -/
def updatedConcertsOf (st : List (List String)) (cs : List Concert) : List (Concert × Nat) :=
  cs.filterMap (fun c =>
    match lookupUrl st c.url with
    | none => none
    | some (r, data) => if serialize6 c = data.take 6 then none else some (c, r))

/-- The targeted row updates (lines 651–671), applied in order: the range
`A{row}:G{row}` replaces sheet row `row`, i.e. list position `row - 1`. -/
def applyUpdates (now : String) : List (List String) → List (Concert × Nat) → List (List String)
  | st, [] => st
  | st, (c, r) :: rest => applyUpdates now (st.set (r - 1) (serialize6 c ++ [now])) rest

/-- `GoogleSheetsService.syncConcerts` with every external call
succeeding: returns the resulting sheet and the `(added, updated)`
counts.  `now` is the `new Date().toISOString()` stamp of this run.
The header is appended when the range read returned nothing; batch
append precedes the row updates, as in the code. -/
def syncApply (now : String) (st : List (List String)) (cs : List Concert) :
    List (List String) × Nat × Nat :=
  let news := newConcertsOf st cs
  let upds := updatedConcertsOf st cs
  let withHeader := if st.isEmpty && (!news.isEmpty || !upds.isEmpty)
    then st ++ [sheetHeaders] else st
  let withNew := if !news.isEmpty
    then withHeader ++ news.map (fun c => serialize6 c ++ [now]) else withHeader
  (applyUpdates now withNew upds, news.length, upds.length)

/-- Outcome of one external write call. -/
inductive WriteOutcome where
  | ok : WriteOutcome
  | fail : String → WriteOutcome
deriving DecidableEq, Repr

/-- Run one write call inside the reconciler's `try`: a failure is the
thrown error, which the surrounding `catch` logs and rethrows. -/
def writeStep : WriteOutcome → Except String Unit
  | WriteOutcome.ok => Except.ok ()
  | WriteOutcome.fail m => Except.error m

/-- Outcomes of the external calls `syncConcerts` makes: the initial
range read (a failure is swallowed: "Sheet appears to be empty"), the
header append, the batch append of new rows, and the `k`-th targeted
row update. -/
structure SheetOps where
  readFails : Bool
  headerW : WriteOutcome
  appendW : WriteOutcome
  updateW : Nat → WriteOutcome

/-- The update loop of `syncConcerts` with injected outcomes: the first
failing `values.update` call throws out of the loop. -/
def applyUpdatesE (uW : Nat → WriteOutcome) (now : String) :
    List (List String) → List (Concert × Nat) → Nat → Except String (List (List String))
  | st, [], _ => Except.ok st
  | st, (c, r) :: rest, k =>
    match uW k with
    | WriteOutcome.fail m => Except.error m
    | WriteOutcome.ok => applyUpdatesE uW now (st.set (r - 1) (serialize6 c ++ [now])) rest (k + 1)

/-- The rows the lookup map is built from: a failed range read leaves it
empty (`needsHeaders` is then set; lines 559–562). -/
def syncLookRows (ops : SheetOps) (st : List (List String)) : List (List String) :=
  if ops.readFails then [] else st

/-- The header append happens iff the read yielded nothing and there is
something to write (lines 610–623). -/
def headerAttempted (ops : SheetOps) (st : List (List String)) (cs : List Concert) : Bool :=
  (syncLookRows ops st).isEmpty &&
    (!(newConcertsOf (syncLookRows ops st) cs).isEmpty ||
      !(updatedConcertsOf (syncLookRows ops st) cs).isEmpty)

/-- The batch append of new rows happens iff some record is new
(lines 626–648). -/
def appendAttempted (ops : SheetOps) (st : List (List String)) (cs : List Concert) : Bool :=
  !(newConcertsOf (syncLookRows ops st) cs).isEmpty

/-- `GoogleSheetsService.syncConcerts` with injected call outcomes
(lines 522–687).  A failed range read leaves the lookup map empty and
sets `needsHeaders` (lines 559–562); every write failure is rethrown by
the outer `catch` (lines 679–686), ending the call in that error. -/
def syncConcertsE (ops : SheetOps) (now : String) (st : List (List String))
    (cs : List Concert) : Except String (List (List String) × Nat × Nat) := do
  let st1 ←
    if headerAttempted ops st cs then do
      writeStep ops.headerW
      pure (st ++ [sheetHeaders])
    else pure st
  let st2 ←
    if appendAttempted ops st cs then do
      writeStep ops.appendW
      pure (st1 ++ (newConcertsOf (syncLookRows ops st) cs).map (fun c => serialize6 c ++ [now]))
    else pure st1
  let st3 ← applyUpdatesE ops.updateW now st2 (updatedConcertsOf (syncLookRows ops st) cs) 0
  pure (st3, (newConcertsOf (syncLookRows ops st) cs).length,
    (updatedConcertsOf (syncLookRows ops st) cs).length)

/-- One candidate that yields two records (two locations, one url):
the normal shape the Record Builder produces. -/
def exDupA : Concert :=
  { title := "T", dates := ["14 maart 2025"], location := "A, X",
    contact := none, url := "u" }

/-- The second record of the same candidate. -/
def exDupB : Concert :=
  { title := "T", dates := ["15 mei 2025"], location := "B, Y",
    contact := none, url := "u" }

/-! ## Helper lemmas -/

theorem takeWhile_append_of_all {p : α → Bool} {d t : List α} (c : α)
    (hd : ∀ a ∈ d, p a = true) (hc : p c = false) :
    (d ++ c :: t).takeWhile p = d := by
  induction d with
  | nil => simp [List.takeWhile, hc]
  | cons a as ih =>
    have ha := hd a (by simp)
    simp only [List.cons_append, List.takeWhile, ha]
    simpa using ih (fun b hb => hd b (by simp [hb]))

theorem dropWhile_append_of_all {p : α → Bool} {d t : List α} (c : α)
    (hd : ∀ a ∈ d, p a = true) (hc : p c = false) :
    (d ++ c :: t).dropWhile p = c :: t := by
  induction d with
  | nil => simp [List.dropWhile, hc]
  | cons a as ih =>
    have ha := hd a (by simp)
    simp only [List.cons_append, List.dropWhile, ha]
    exact ih (fun b hb => hd b (by simp [hb]))

theorem matchesDatePattern_iff (s : String) :
    matchesDatePattern s = true ↔ SpecDatePattern s := by
  constructor
  · intro h
    have hsplit := List.takeWhile_append_dropWhile (p := isDigitChar) (l := s.data)
    rw [matchesDatePattern] at h
    simp only [Bool.and_eq_true, decide_eq_true_eq] at h
    obtain ⟨⟨h1, h2⟩, h3⟩ := h
    cases hr1 : s.data.dropWhile isDigitChar with
    | nil => rw [hr1, matchAfterDay] at h3; exact absurd h3 (by simp)
    | cons c r2 =>
      rw [hr1, matchAfterDay] at h3
      simp only [Bool.and_eq_true, decide_eq_true_eq] at h3
      obtain ⟨⟨hc, h4⟩, h5⟩ := h3
      have hsplit2 := List.takeWhile_append_dropWhile (p := isAsciiLetter) (l := r2)
      cases hr3 : r2.dropWhile isAsciiLetter with
      | nil => rw [hr3, matchYearPart] at h5; exact absurd h5 (by simp)
      | cons c2 r4 =>
        rw [hr3, matchYearPart] at h5
        simp only [Bool.and_eq_true, decide_eq_true_eq] at h5
        obtain ⟨⟨hc2, hlen4⟩, hdig4⟩ := h5
        refine ⟨s.data.takeWhile isDigitChar, r2.takeWhile isAsciiLetter, r4,
          ?_, h1, h2, ?_, h4, ?_, hlen4, hdig4⟩
        · have hr2 : r2 = List.takeWhile isAsciiLetter r2 ++ (spaceChar :: r4) := by
            conv_lhs => rw [← hsplit2, hr3, hc2]
          conv_lhs => rw [← hsplit, hr1, hc, hr2]
        · simp only [List.all_eq_true]
          exact fun a ha => List.mem_takeWhile_imp ha
        · simp only [List.all_eq_true]
          exact fun a ha => List.mem_takeWhile_imp ha
  · rintro ⟨d, m, y, hdecomp, hd1, hd2, hdall, hm1, hmall, hy4, hyall⟩
    have hsp : isDigitChar spaceChar = false := by decide
    have hsp2 : isAsciiLetter spaceChar = false := by decide
    simp only [List.all_eq_true] at hdall hmall
    rw [matchesDatePattern, hdecomp]
    rw [takeWhile_append_of_all spaceChar hdall hsp, dropWhile_append_of_all spaceChar hdall hsp]
    rw [matchAfterDay]
    rw [takeWhile_append_of_all spaceChar hmall hsp2, dropWhile_append_of_all spaceChar hmall hsp2]
    rw [matchYearPart]
    simp only [List.all_eq_true] at hyall
    simp only [Bool.and_eq_true, decide_eq_true_eq, List.all_eq_true]
    tauto

/-- C2: when per-event filtering leaves zero valid events, the engine
returns exactly the one sentinel event (never an empty sequence); when at
least one valid event remains, the filtered events are returned unchanged
and no sentinel is among them. -/
theorem sentinel_substitution (p : ExtractedInfo) :
    (validateEvents p.events = [] → (processParsed p).events = [sentinelEvent]) ∧
    (validateEvents p.events ≠ [] → (processParsed p).events = validateEvents p.events ∧
      sentinelEvent ∉ (processParsed p).events) := by
  constructor
  · intro h
    simp [processParsed, h]
  · intro h
    have hk : (validateEvents p.events).isEmpty = false := by
      cases hv : validateEvents p.events with
      | nil => exact absurd hv h
      | cons a l => simp
    have hev : (processParsed p).events = validateEvents p.events := by
      simp [processParsed, hk]
    refine ⟨hev, ?_⟩
    rw [hev]
    intro hmem
    rw [validateEvents, List.mem_filter] at hmem
    exact absurd hmem.2 (by decide)

/-- Witness for C2: a batch whose only event fails both checks yields
exactly the sentinel. -/
theorem sentinel_substitution_instance :
    (processParsed { events := [{ date := "soon", location := "NoComma" }], contact := none }).events
      = [sentinelEvent] :=
  (sentinel_substitution _).1 (by decide)

/-- C3 counterexample: an event whose date is `"32 invalidmonth 2025"` is
NOT dropped — the pattern `/^\d{1,2} [a-z]+ \d{4}$/i` checks only the
digits/letters shape, and `32`-`invalidmonth`-`2025` satisfies it, so with
a comma-bearing location the event passes the filter. -/
theorem date_filter_claim_counterexample :
    matchesDatePattern "32 invalidmonth 2025" = true ∧
    validateEvents [{ date := "32 invalidmonth 2025", location := "Vorst Nationaal, Brussel" }] =
      [{ date := "32 invalidmonth 2025", location := "Vorst Nationaal, Brussel" }] := by
  decide

/-- C3 (amended): the filter keeps exactly the events whose date matches
"1–2 digits, space, alphabetic token, space, 4 digits" (case-insensitive)
and whose location contains a comma, dropping invalid events individually;
an event with location `"NoComma"` is dropped, while an event with date
`"32 invalidmonth 2025"` and a comma-bearing location is kept (the pattern
does not validate day ranges or month names). -/
theorem validation_filter_spec :
    (∀ (e : ExtractedEvent) (events : List ExtractedEvent),
      e ∈ validateEvents events ↔
        e ∈ events ∧ SpecDatePattern e.date ∧
          strContainsChar e.location (Char.ofNat 44) = true) ∧
    validateEvents [{ date := "1 juni 2025", location := "NoComma" }] = [] ∧
    validateEvents [{ date := "32 invalidmonth 2025", location := "V, B" }] =
      [{ date := "32 invalidmonth 2025", location := "V, B" }] := by
  refine ⟨?_, by decide, by decide⟩
  intro e events
  rw [validateEvents, List.mem_filter, isValidEvent, Bool.and_eq_true, matchesDatePattern_iff]

/-- Witness for C3's amended theorem: the `"NoComma"` event is dropped. -/
theorem validation_filter_instance :
    ({ date := "1 juni 2025", location := "NoComma" } : ExtractedEvent) ∉
      validateEvents [{ date := "1 juni 2025", location := "NoComma" }] := by
  intro hmem
  have h := (validation_filter_spec.1 _ _).mp hmem
  exact absurd h.2.2 (by decide)

/-- C5 (code-bug evaluation): a record built from the dates
`["15 mei 2025", "14 maart 2025"]` keeps them in that order — the sort
key `new Date("2025-mei-15")` / `new Date("2025-maart-14")` is an invalid
date (`none`), the comparator result `NaN` is coerced to `0`, and the
stable sort leaves the pair untouched — yet as calendar instants of the
documented `"DD monthname YYYY"` format, 14 maart precedes 15 mei: the
dates sequence is decreasing, not non-decreasing. -/
theorem sortDates_not_chronological :
    sortDates ["15 mei 2025", "14 maart 2025"] = ["15 mei 2025", "14 maart 2025"] ∧
    jsDateKey "15 mei 2025" = none ∧ jsDateKey "14 maart 2025" = none ∧
    specCalendarValue "14 maart 2025" = some 20250314 ∧
    specCalendarValue "15 mei 2025" = some 20250515 ∧ 20250314 < 20250515 := by
  decide

/-- C9 counterexample: a rendered page whose visible text is just `"Hi"`
(non-empty) yields an empty excerpt — every fragment shorter than 11
characters or of at most 2 words is filtered out, so the claimed
"non-empty whenever the page has visible text" guarantee fails. -/
theorem normalizer_empty_output :
    extractPageContent ["Hi"] = "" ∧ strTrim "Hi" ≠ "" := by
  constructor
  · rw [extractPageContent]
    have h : (["Hi"].map strTrim).filter keepFragment = [] := by decide
    rw [h]
    simp [dedupKeepFirst, joinStrings, maxContentLength]
  · decide

theorem dedupKeepFirst_eq_nil_iff [DecidableEq α] (l : List α) :
    dedupKeepFirst l = [] ↔ l = [] := by
  cases l <;> simp [dedupKeepFirst]

theorem length_le_joinStrings_cons (sep a : String) (l : List String) :
    a.length ≤ (joinStrings sep (a :: l)).length := by
  cases l with
  | nil => simp [joinStrings]
  | cons b t => simp only [joinStrings, String.length_append]; omega

/-- C9 (amended): the excerpt is always bounded by the character budget
plus the ellipsis marker, and it is non-empty exactly when at least one
text fragment survives the keep-filter — a page whose visible text is all
filtered out (too short, too few words, boilerplate) produces an empty
excerpt. -/
theorem normalizer_bounded_nonempty :
    (∀ texts : List String, (extractPageContent texts).length ≤ maxContentLength + 3) ∧
    (∀ texts : List String,
      extractPageContent texts ≠ "" ↔ ∃ t ∈ texts, keepFragment (strTrim t) = true) := by
  constructor
  · intro texts
    rw [extractPageContent]
    split
    · rw [String.length_append]
      have h1 : (strTake (joinStrings "\n" ((dedupKeepFirst
          ((texts.map strTrim).filter keepFragment)).take 50)) maxContentLength).length ≤
          maxContentLength := by
        simp only [strTake, String.length_mk, List.length_take]
        omega
      have h2 : ("..." : String).length = 3 := by decide
      omega
    · next h =>
      simp only [decide_eq_true_eq, Nat.not_lt] at h
      omega
  · intro texts
    have hrel : ((texts.map strTrim).filter keepFragment ≠ []) ↔
        ∃ t ∈ texts, keepFragment (strTrim t) = true := by
      rw [Ne, List.filter_eq_nil_iff]
      constructor
      · intro h
        by_contra hno
        push_neg at hno
        exact h fun a ha hk => by
          obtain ⟨t, ht, rfl⟩ := List.mem_map.mp ha
          exact absurd hk (by simpa using hno t ht)
      · rintro ⟨t, ht, hk⟩ hall
        exact absurd hk (by simpa using hall (strTrim t) (List.mem_map.mpr ⟨t, ht, rfl⟩))
    rw [← hrel]
    rw [extractPageContent]
    constructor
    · intro hne
      intro hnil
      apply hne
      rw [hnil]
      simp [dedupKeepFirst, joinStrings, maxContentLength]
    · intro hne
      cases hrelv : (texts.map strTrim).filter keepFragment with
      | nil => exact absurd hrelv hne
      | cons a l =>
        have hk : keepFragment a = true := (List.mem_filter.mp (hrelv ▸ List.mem_cons_self a l)).2
        have ha : 10 < a.length := by
          rw [keepFragment] at hk
          simp only [Bool.and_eq_true, decide_eq_true_eq] at hk
          exact hk.1.1.1.2
        have hded : dedupKeepFirst (a :: l) = a :: dedupKeepFirst (l.filter (fun b => b ≠ a)) := by
          rw [dedupKeepFirst]
        rw [hded]
        have htake : (a :: dedupKeepFirst (l.filter (fun b => b ≠ a))).take 50 =
            a :: (dedupKeepFirst (l.filter (fun b => b ≠ a))).take 49 := rfl
        rw [htake]
        have hlen : 10 < (joinStrings "\n"
            (a :: (dedupKeepFirst (l.filter (fun b => b ≠ a))).take 49)).length :=
          Nat.lt_of_lt_of_le ha (length_le_joinStrings_cons _ _ _)
        intro hout
        split at hout
        · next hbig =>
          have := congrArg String.length hout
          rw [String.length_append, String.length_empty] at this
          have h3 : ("..." : String).length = 3 := by decide
          omega
        · next hsmall =>
          have := congrArg String.length hout
          rw [String.length_empty] at this
          omega

/-- C10 counterexample: a merge input of total length 1 containing a
record with an empty `dates` array does NOT throw — the sort of a
one-element array never invokes the comparator, so the unguarded
`dates[0]` is never read and the record is saved as-is. -/
theorem merge_singleton_no_throw :
    mergeAndSort [{ title := "T", dates := [], location := "L", contact := none, url := "u" }] []
      = some [{ title := "T", dates := [], location := "L", contact := none, url := "u" }] := by
  decide

theorem length_insertStable (le : α → α → Bool) (a : α) (l : List α) :
    (insertStable le a l).length = l.length + 1 := by
  induction l with
  | nil => rfl
  | cons b bs ih =>
    rw [insertStable]
    split
    · simp [ih]
    · simp

theorem length_sortStable (le : α → α → Bool) (l : List α) :
    (sortStable le l).length = l.length := by
  suffices h : ∀ acc : List α,
      (l.foldl (fun acc a => insertStable le a acc) acc).length = acc.length + l.length by
    simpa using h []
  induction l with
  | nil => simp
  | cons a as ih =>
    intro acc
    rw [List.foldl_cons, ih, length_insertStable]
    simp only [List.length_cons]
    omega

theorem groupByLocation_buckets_ne_nil (events : List ExtractedEvent) :
    ∀ kv ∈ groupByLocation events, kv.2 ≠ [] := by
  suffices h : ∀ acc : List (String × List String), (∀ kv ∈ acc, kv.2 ≠ []) →
      ∀ kv ∈ events.foldl addEvent acc, kv.2 ≠ [] by
    exact h [] (by simp)
  induction events with
  | nil => intro acc hacc; simpa using hacc
  | cons e es ih =>
    intro acc hacc
    rw [List.foldl_cons]
    apply ih
    rw [addEvent]
    split
    · intro kv hkv
      obtain ⟨kv0, hkv0, rfl⟩ := List.mem_map.mp hkv
      split
      · simp
      · exact hacc kv0 hkv0
    · intro kv hkv
      rcases List.mem_append.mp hkv with h | h
      · exact hacc kv h
      · simp only [List.mem_singleton] at h
        subst h
        simp

/-- C10 (amended): the ledger merge-and-sort is total when every record
has a non-empty `dates` array; an input of TOTAL LENGTH ≥ 2 containing a
record with empty `dates` throws before anything is saved (a lone such
record is sorted without any comparison, hence saved unguarded); freshly
built records always have non-empty `dates`; and records loaded from the
ledger file are returned without any validation. -/
theorem merge_empty_dates_safety :
    (∀ existing fresh : List Concert, (∀ c ∈ existing ++ fresh, c.dates ≠ []) →
      ∃ l, mergeAndSort existing fresh = some l) ∧
    (∀ (existing fresh : List Concert) (c : Concert), 2 ≤ (existing ++ fresh).length →
      c ∈ existing ++ fresh → c.dates = [] → mergeAndSort existing fresh = none) ∧
    (∀ (link : ConcertLink) (info : ExtractedInfo) (c : Concert),
      c ∈ createConcertObjects link info → c.dates ≠ []) ∧
    (∀ l : List Concert, loadExistingConcerts (some (Except.ok l)) = l) := by
  refine ⟨?_, ?_, ?_, fun l => rfl⟩
  · intro existing fresh h
    rw [mergeAndSort]
    split
    · exact ⟨_, rfl⟩
    · have hall : (existing ++ fresh).all (fun c => !c.dates.isEmpty) = true := by
        rw [List.all_eq_true]
        intro c hc
        have := h c hc
        cases hd : c.dates with
        | nil => exact absurd hd this
        | cons a l => simp [hd]
      rw [if_pos hall]
      exact ⟨_, rfl⟩
  · intro existing fresh c hlen hc hdc
    rw [mergeAndSort]
    have h1 : ¬ (existing ++ fresh).length ≤ 1 := by omega
    rw [if_neg h1]
    have hall : (existing ++ fresh).all (fun c => !c.dates.isEmpty) = false := by
      rw [← Bool.not_eq_true, List.all_eq_true]
      intro hforall
      have := hforall c hc
      rw [hdc] at this
      simp at this
    rw [if_neg (by simp [hall])]
  · intro link info c hc
    rw [createConcertObjects] at hc
    obtain ⟨kv, hkv, rfl⟩ := List.mem_map.mp hc
    have hne := groupByLocation_buckets_ne_nil info.events kv hkv
    intro hnil
    apply hne
    have := congrArg List.length hnil
    rw [sortDates, length_sortStable] at this
    simpa using List.length_eq_zero.mp this

/-- Witness for C10's amended theorem: a loaded empty-dates record next
to a good one makes the merge throw. -/
theorem merge_empty_dates_instance :
    mergeAndSort [{ title := "T", dates := [], location := "L", contact := none, url := "u" },
      { title := "S", dates := ["14 maart 2025"], location := "M, N", contact := none, url := "v" }]
      [] = none :=
  merge_empty_dates_safety.2.1 _ []
    { title := "T", dates := [], location := "L", contact := none, url := "u" }
    (by decide) (by decide) rfl

/-- One unfolding of `extractRun` with the key present. -/
theorem extractRun_true_eq (o : Nat → LLMOutcome) (rc : Nat) :
    extractRun true o rc =
      match o rc with
      | LLMOutcome.ok p => (Except.ok (processParsed p), 1)
      | LLMOutcome.api =>
        if rc < MAX_RETRIES
          then ((extractRun true o (rc + 1)).1, (extractRun true o (rc + 1)).2 + 1)
          else (Except.error ExtractErr.api, 1)
      | LLMOutcome.badJson =>
        if rc < MAX_RETRIES
          then ((extractRun true o (rc + 1)).1, (extractRun true o (rc + 1)).2 + 1)
          else (Except.error ExtractErr.parse, 1) := by
  cases ho : o rc <;> rw [extractRun, ho] <;> simp

/-- C6: the engine makes at most `MAX_RETRIES + 1 = 4` request attempts;
if the first four outcomes are all transient (malformed JSON or transport
failure, in any mix — they share the one counter), the call fails by
propagating the final attempt's error; and a success on the fourth
attempt after three transient failures is returned normally. -/
theorem extraction_retry_bound (o : Nat → LLMOutcome) :
    (extractRun true o 0).2 ≤ 4 ∧
    ((∀ n, n < 4 → (o n).transient = true) →
      extractRun true o 0 = (Except.error (o 3).errOf, 4)) ∧
    (∀ p, (∀ n, n < 3 → (o n).transient = true) → o 3 = LLMOutcome.ok p →
      extractRun true o 0 = (Except.ok (processParsed p), 4)) := by
  have h3 : ∀ o' : Nat → LLMOutcome, (extractRun true o' 3).2 = 1 := by
    intro o'
    rw [extractRun_true_eq]
    cases ho : o' 3 <;> simp [MAX_RETRIES]
  have h2 : ∀ o' : Nat → LLMOutcome, (extractRun true o' 2).2 ≤ 2 := by
    intro o'
    rw [extractRun_true_eq]
    cases ho : o' 2 <;> simp [MAX_RETRIES, h3 o']
  have h1 : ∀ o' : Nat → LLMOutcome, (extractRun true o' 1).2 ≤ 3 := by
    intro o'
    rw [extractRun_true_eq]
    cases ho : o' 1 <;> simp [MAX_RETRIES] <;> exact h2 o'
  have h0 : ∀ o' : Nat → LLMOutcome, (extractRun true o' 0).2 ≤ 4 := by
    intro o'
    rw [extractRun_true_eq]
    cases ho : o' 0 <;> simp [MAX_RETRIES] <;> exact h1 o'
  refine ⟨h0 o, ?_, ?_⟩
  · intro htr
    have e3 : extractRun true o 3 = (Except.error (o 3).errOf, 1) := by
      have ht := htr 3 (by omega)
      rw [extractRun_true_eq]
      cases ho : o 3 <;> rw [ho] at ht <;>
        simp_all [MAX_RETRIES, LLMOutcome.errOf, LLMOutcome.transient]
    have e2 : extractRun true o 2 = (Except.error (o 3).errOf, 2) := by
      have ht := htr 2 (by omega)
      rw [extractRun_true_eq]
      cases ho : o 2 <;> rw [ho] at ht <;>
        simp_all [MAX_RETRIES, LLMOutcome.transient]
    have e1 : extractRun true o 1 = (Except.error (o 3).errOf, 3) := by
      have ht := htr 1 (by omega)
      rw [extractRun_true_eq]
      cases ho : o 1 <;> rw [ho] at ht <;>
        simp_all [MAX_RETRIES, LLMOutcome.transient]
    have ht := htr 0 (by omega)
    rw [extractRun_true_eq]
    cases ho : o 0 <;> rw [ho] at ht <;>
      simp_all [MAX_RETRIES, LLMOutcome.transient]
  · intro p htr hok
    have e3 : extractRun true o 3 = (Except.ok (processParsed p), 1) := by
      rw [extractRun_true_eq, hok]
    have e2 : extractRun true o 2 = (Except.ok (processParsed p), 2) := by
      have ht := htr 2 (by omega)
      rw [extractRun_true_eq]
      cases ho : o 2 <;> rw [ho] at ht <;>
        simp_all [MAX_RETRIES, LLMOutcome.transient]
    have e1 : extractRun true o 1 = (Except.ok (processParsed p), 3) := by
      have ht := htr 1 (by omega)
      rw [extractRun_true_eq]
      cases ho : o 1 <;> rw [ho] at ht <;>
        simp_all [MAX_RETRIES, LLMOutcome.transient]
    have ht := htr 0 (by omega)
    rw [extractRun_true_eq]
    cases ho : o 0 <;> rw [ho] at ht <;>
      simp_all [MAX_RETRIES, LLMOutcome.transient]

/-- Witness for C6: with transport and parse failures alternating on all
four attempts (one shared counter), the call propagates the final parse
error after exactly 4 attempts. -/
theorem extraction_retry_bound_instance :
    extractRun true (fun n => if n = 0 then LLMOutcome.api else LLMOutcome.badJson) 0 =
      (Except.error ExtractErr.parse, 4) := by
  have h := (extraction_retry_bound
    (fun n => if n = 0 then LLMOutcome.api else LLMOutcome.badJson)).2.1 (by decide)
  simpa using h

/-- C1: reconciliation partitions records by url against the remote
store.  A record whose url has no existing row is classified `new`; a
record whose url has an existing row whose first six columns equal the
six serialized fields (timestamp excluded) is classified `unchanged` —
it is in neither write list; a record whose stored row differs in any of
the six fields is classified `updated` (with that row as its write
target). -/
theorem sync_classification (rows : List (List String)) (cs : List Concert) (c : Concert)
    (hc : c ∈ cs) :
    (lookupUrl rows c.url = none → c ∈ newConcertsOf rows cs) ∧
    (∀ r row, lookupUrl rows c.url = some (r, row) →
      (serialize6 c = row.take 6 →
        c ∉ newConcertsOf rows cs ∧ ∀ r', (c, r') ∉ updatedConcertsOf rows cs) ∧
      (serialize6 c ≠ row.take 6 → (c, r) ∈ updatedConcertsOf rows cs)) := by
  constructor
  · intro h
    rw [newConcertsOf, List.mem_filter]
    exact ⟨hc, by simp [h]⟩
  · intro r row hlook
    constructor
    · intro heq
      constructor
      · rw [newConcertsOf, List.mem_filter]
        rintro ⟨-, hnone⟩
        simp [hlook] at hnone
      · intro r' hmem
        rw [updatedConcertsOf, List.mem_filterMap] at hmem
        obtain ⟨a, _, hfa⟩ := hmem
        cases hla : lookupUrl rows a.url with
        | none => rw [hla] at hfa; simp at hfa
        | some v =>
          obtain ⟨rv, datav⟩ := v
          rw [hla] at hfa
          by_cases hser : serialize6 a = datav.take 6
          · simp [hser] at hfa
          · simp only [if_neg hser, Option.some.injEq, Prod.mk.injEq] at hfa
            obtain ⟨rfl, -⟩ := hfa
            rw [hlook] at hla
            obtain ⟨-, rfl⟩ := Prod.mk.injEq .. ▸ (Option.some.injEq .. ▸ hla)
            exact hser heq
    · intro hne
      rw [updatedConcertsOf, List.mem_filterMap]
      exact ⟨c, hc, by simp [hlook, hne]⟩

/-- The stored remote row for url `"u"` with title `"A"`. -/
def exRowA : List String := ["A", "1 januari 2025", "V, B", "", "", "u", "t0"]

/-- A remote store holding the header row and `exRowA`. -/
def exStoreRows : List (List String) := [sheetHeaders, exRowA]

/-- The incoming record for url `"u"` with title `"B"`, all else equal. -/
def exRecB : Concert :=
  { title := "B", dates := ["1 januari 2025"], location := "V, B", contact := none, url := "u" }

/-- Witness for C1: a stored row with title `"A"` and an incoming record
with title `"B"` (all else equal) is classified `updated` with the stored
row as target, not `new` or `unchanged`. -/
theorem sync_classification_instance :
    (exRecB, 2) ∈ updatedConcertsOf exStoreRows [exRecB] ∧
      exRecB ∉ newConcertsOf exStoreRows [exRecB] := by
  have h := sync_classification exStoreRows [exRecB] exRecB (by decide)
  constructor
  · exact ((h.2 2 exRowA (by decide)).2 (by decide))
  · intro hmem
    rw [newConcertsOf, List.mem_filter] at hmem
    have : lookupUrl exStoreRows exRecB.url = some (2, exRowA) := by decide
    simp [this] at hmem

/-- C7 counterexample: a failing `fs.writeFileSync` in `saveConcerts` is
swallowed — the method returns normally and the error does NOT propagate
to the caller. -/
theorem save_error_swallowed :
    saveConcerts (Except.error "disk full") = Except.ok () ∧
    saveConcerts (Except.error "disk full") ≠ Except.error "disk full" := by
  exact ⟨rfl, by simp [saveConcerts]⟩

theorem applyUpdatesE_error (uW : Nat → WriteOutcome) (now : String) :
    ∀ (upds : List (Concert × Nat)) (st : List (List String)) (k0 k : Nat) (m : String),
      (∀ j, j < k → uW (k0 + j) = WriteOutcome.ok) → uW (k0 + k) = WriteOutcome.fail m →
      k < upds.length → applyUpdatesE uW now st upds k0 = Except.error m := by
  intro upds
  induction upds with
  | nil =>
    intro st k0 k m hok hf hk
    simp at hk
  | cons hd tl ih =>
    intro st k0 k m hok hf hk
    obtain ⟨c, r⟩ := hd
    simp only [applyUpdatesE]
    cases k with
    | zero =>
      rw [Nat.add_zero] at hf
      rw [hf]
    | succ l =>
      have h0 : uW k0 = WriteOutcome.ok := by simpa using hok 0 (Nat.succ_pos _)
      rw [h0]
      refine ih _ (k0 + 1) l m (fun j hj => ?_) ?_ ?_
      · have := hok (j + 1) (by omega)
        rwa [show k0 + (j + 1) = k0 + 1 + j by omega] at this
      · rwa [show k0 + 1 + l = k0 + (l + 1) by omega]
      · simpa using hk

/-- C7 (amended): every remote-store write failure during reconciliation
— header append, batch append, or any targeted row update — propagates to
the caller as the error of `syncConcerts`; but a failure to write the
local ledger file in `saveConcerts` is caught and only logged: it never
propagates. -/
theorem write_failure_propagation :
    (∀ w : Except String Unit, saveConcerts w = Except.ok ()) ∧
    (∀ (ops : SheetOps) (now : String) (st : List (List String)) (cs : List Concert) (m : String),
      (headerAttempted ops st cs = true → ops.headerW = WriteOutcome.fail m →
        syncConcertsE ops now st cs = Except.error m) ∧
      ((headerAttempted ops st cs = true → ops.headerW = WriteOutcome.ok) →
        appendAttempted ops st cs = true → ops.appendW = WriteOutcome.fail m →
        syncConcertsE ops now st cs = Except.error m) ∧
      (∀ k, (headerAttempted ops st cs = true → ops.headerW = WriteOutcome.ok) →
        (appendAttempted ops st cs = true → ops.appendW = WriteOutcome.ok) →
        k < (updatedConcertsOf (syncLookRows ops st) cs).length →
        (∀ j, j < k → ops.updateW j = WriteOutcome.ok) →
        ops.updateW k = WriteOutcome.fail m →
        syncConcertsE ops now st cs = Except.error m)) := by
  refine ⟨fun w => by cases w <;> rfl, ?_⟩
  intro ops now st cs m
  refine ⟨?_, ?_, ?_⟩
  · intro hatt hfail
    simp only [syncConcertsE, hatt, hfail, writeStep, if_true]
    rfl
  · intro hHok hatt2 hfail
    by_cases hH : headerAttempted ops st cs = true
    · have hho := hHok hH
      simp only [syncConcertsE, hH, hho, hatt2, hfail, writeStep, if_true]
      rfl
    · rw [Bool.not_eq_true] at hH
      simp only [syncConcertsE, hH, hatt2, hfail, writeStep, if_true, Bool.false_eq_true,
        if_false]
      rfl
  · intro k hHok hAok hk hprev hfail
    have hupd : ∀ st2 : List (List String),
        applyUpdatesE ops.updateW now st2 (updatedConcertsOf (syncLookRows ops st) cs) 0 =
          Except.error m := by
      intro st2
      refine applyUpdatesE_error ops.updateW now _ st2 0 k m (fun j hj => ?_) ?_ hk
      · simpa using hprev j hj
      · simpa using hfail
    by_cases hH : headerAttempted ops st cs = true
    · have hho := hHok hH
      by_cases hA : appendAttempted ops st cs = true
      · have hao := hAok hA
        simp [syncConcertsE, hH, hho, hA, hao, writeStep, hupd]
        rfl
      · rw [Bool.not_eq_true] at hA
        simp [syncConcertsE, hH, hho, hA, writeStep, hupd]
        rfl
    · rw [Bool.not_eq_true] at hH
      by_cases hA : appendAttempted ops st cs = true
      · have hao := hAok hA
        simp [syncConcertsE, hH, hA, hao, writeStep, hupd]
        rfl
      · rw [Bool.not_eq_true] at hA
        simp [syncConcertsE, hH, hA, writeStep, hupd]

/-- Witness for C7: with an empty remote store, one record to add and a
failing header append, `syncConcerts` ends in that error. -/
theorem write_failure_propagation_instance :
    syncConcertsE
      { readFails := false, headerW := WriteOutcome.fail "quota",
        appendW := WriteOutcome.ok, updateW := fun _ => WriteOutcome.ok }
      "t" [] [exRecB] = Except.error "quota" :=
  (write_failure_propagation.2 _ "t" [] [exRecB] "quota").1 (by decide) rfl

theorem mem_dedupKeepFirst [DecidableEq α] (l : List α) (a : α) :
    a ∈ dedupKeepFirst l ↔ a ∈ l := by
  induction l using dedupKeepFirst.induct with
  | case1 => simp [dedupKeepFirst]
  | case2 b bs ih =>
    rw [dedupKeepFirst, List.mem_cons, ih, List.mem_filter, List.mem_cons]
    by_cases hab : a = b <;> simp [hab]

theorem dedupKeepFirst_append_singleton [DecidableEq α] (b : α) (l : List α) :
    dedupKeepFirst (l ++ [b]) = dedupKeepFirst l ++ (if b ∈ l then [] else [b]) := by
  induction l using dedupKeepFirst.induct with
  | case1 => simp [dedupKeepFirst]
  | case2 a as ih =>
    rw [List.cons_append, dedupKeepFirst, List.filter_append]
    by_cases hba : b = a
    · subst hba
      simp only [List.filter_cons, ne_eq, decide_not]
      simp [dedupKeepFirst]
    · have hfb : List.filter (fun x => decide (x ≠ a)) [b] = [b] := by simp [hba]
      rw [hfb, ih]
      have hmem : (b ∈ List.filter (fun x => decide (x ≠ a)) as) ↔ b ∈ as := by
        simp [List.mem_filter, hba]
      by_cases hbas : b ∈ as
      · simp [hmem, hbas, dedupKeepFirst, hba]
      · rw [if_neg (by rw [hmem]; exact hbas), if_neg (by simp [hba, hbas])]
        simp [dedupKeepFirst]

/-- The grouping in closed form: one bucket per distinct location in
first-seen order, holding that location's dates in event order. -/
def canonGroup (events : List ExtractedEvent) : List (String × List String) :=
  (dedupKeepFirst (events.map (fun e => e.location))).map
    (fun loc => (loc, (events.filter (fun e => e.location = loc)).map (fun e => e.date)))

theorem addEvent_canon (P : List ExtractedEvent) (e : ExtractedEvent) :
    addEvent (canonGroup P) e = canonGroup (P ++ [e]) := by
  have hfun : ∀ l : String,
      ((P ++ [e]).filter (fun ev => ev.location = l)).map (fun ev => ev.date) =
        ((P.filter (fun ev => ev.location = l)).map (fun ev => ev.date) ++
          if e.location = l then [e.date] else []) := by
    intro l
    rw [List.filter_append, List.map_append]
    congr 1
    by_cases hel : e.location = l <;> simp [hel]
  conv_rhs => rw [canonGroup, List.map_append]
  simp only [List.map_cons, List.map_nil]
  rw [dedupKeepFirst_append_singleton]
  have hmemkeys : ∀ kv ∈ canonGroup P, kv.1 ∈ P.map (fun ev => ev.location) := by
    intro kv hkv
    rw [canonGroup] at hkv
    obtain ⟨l, hl, rfl⟩ := List.mem_map.mp hkv
    exact (mem_dedupKeepFirst _ _).mp hl
  by_cases hin : e.location ∈ P.map (fun ev => ev.location)
  · have hany : (canonGroup P).any (fun kv => kv.1 = e.location) = true := by
      rw [List.any_eq_true]
      refine ⟨(e.location,
        (P.filter (fun ev => ev.location = e.location)).map (fun ev => ev.date)), ?_, by simp⟩
      rw [canonGroup]
      exact List.mem_map.mpr ⟨e.location, (mem_dedupKeepFirst _ _).mpr hin, rfl⟩
    rw [addEvent, if_pos hany, if_pos hin, List.append_nil, canonGroup, List.map_map]
    apply List.map_congr_left
    intro l hl
    by_cases hle : l = e.location
    · subst hle
      simp [hfun]
    · have hne : ¬ e.location = l := fun h => hle h.symm
      simp [hfun, hle, hne]
  · have hany : (canonGroup P).any (fun kv => kv.1 = e.location) = false := by
      rw [← Bool.not_eq_true, List.any_eq_true]
      rintro ⟨kv, hkv, hkv1⟩
      simp only [decide_eq_true_eq] at hkv1
      exact hin (hkv1 ▸ hmemkeys kv hkv)
    rw [addEvent, if_neg (by simp [hany]), if_neg hin]
    conv_rhs => rw [List.map_append]
    congr 1
    · apply List.map_congr_left
      intro l hl
      have hl' : l ∈ P.map (fun ev => ev.location) := (mem_dedupKeepFirst _ _).mp hl
      have hne : ¬ e.location = l := fun h => hin (h ▸ hl')
      simp [hfun, hne]
    · have hnil : P.filter (fun ev => ev.location = e.location) = [] := by
        rw [List.filter_eq_nil_iff]
        intro x hx
        simp only [decide_eq_true_eq]
        intro hxl
        exact hin (List.mem_map.mpr ⟨x, hx, hxl⟩)
      simp [hfun, hnil]

theorem groupByLocation_eq_canon (events : List ExtractedEvent) :
    groupByLocation events = canonGroup events := by
  induction events using List.reverseRecOn with
  | nil => simp [groupByLocation, canonGroup, dedupKeepFirst]
  | append_singleton P e ih =>
    rw [groupByLocation, List.foldl_append, List.foldl_cons, List.foldl_nil,
      ← groupByLocation, ih]
    exact addEvent_canon P e

/-- C4: the Record Builder emits exactly one record per distinct
location, locations in first-seen order, each record carrying the
candidate's title and url, the shared contact, and that location's dates
(sorted by `sortDates`). -/
theorem record_builder_grouping (link : ConcertLink) (info : ExtractedInfo) :
    ((createConcertObjects link info).map (fun c => c.location) =
      dedupKeepFirst (info.events.map (fun e => e.location))) ∧
    (∀ c ∈ createConcertObjects link info,
      c.title = link.title ∧ c.url = link.url ∧ c.contact = info.contact ∧
      c.dates = sortDates ((info.events.filter
        (fun e => e.location = c.location)).map (fun e => e.date))) := by
  rw [createConcertObjects, groupByLocation_eq_canon, canonGroup]
  constructor
  · rw [List.map_map, List.map_map]
    exact List.map_id _ ▸ rfl
  · intro c hc
    rw [List.map_map] at hc
    obtain ⟨l, _, rfl⟩ := List.mem_map.mp hc
    exact ⟨rfl, rfl, rfl, rfl⟩

/-- The end-to-end example candidate. -/
def exLink : ConcertLink := { url := "https://x/1", title := "Band" }

/-- Extraction events `[{d1,locA},{d2,locA},{d3,locB}]`. -/
def exInfo : ExtractedInfo :=
  { events := [{ date := "14 maart 2025", location := "A, X" },
      { date := "15 mei 2025", location := "A, X" },
      { date := "1 juni 2025", location := "B, Y" }],
    contact := none }

/-- The expected first record: `locA` with both dates. -/
def exRecA : Concert :=
  { title := "Band", dates := ["14 maart 2025", "15 mei 2025"], location := "A, X",
    contact := none, url := "https://x/1" }

/-- Witness for C4: on `[{d1,locA},{d2,locA},{d3,locB}]` the builder
emits the `locA` record carrying `[d1, d2]` through `sortDates`. -/
theorem record_builder_grouping_instance :
    exRecA ∈ createConcertObjects exLink exInfo ∧
    exRecA.dates = sortDates ((exInfo.events.filter
      (fun e => e.location = exRecA.location)).map (fun e => e.date)) :=
  ⟨by decide, ((record_builder_grouping exLink exInfo).2 exRecA (by decide)).2.2.2⟩

theorem getD_set_self' (l : List α) (i : Nat) (a d : α) (h : i < l.length) :
    (l.set i a).getD i d = a := by
  simp [List.getD_eq_getElem?_getD, List.getElem?_set_self h]

theorem getD_set_ne' (l : List α) (i j : Nat) (a d : α) (h : i ≠ j) :
    (l.set i a).getD j d = l.getD j d := by
  simp [List.getD_eq_getElem?_getD, List.getElem?_set_ne h]

theorem getD_append_left' {l1 l2 : List α} {n : Nat} (d : α) (h : n < l1.length) :
    (l1 ++ l2).getD n d = l1.getD n d := by
  simp [List.getD_eq_getElem?_getD, List.getElem?_append_left h]

theorem getD_append_right' {l1 l2 : List α} {n : Nat} (d : α) (h : l1.length ≤ n) :
    (l1 ++ l2).getD n d = l2.getD (n - l1.length) d := by
  simp [List.getD_eq_getElem?_getD, List.getElem?_append_right h]

/-- Forward content of a `scanRows` hit: a matching row at offset `r - i`. -/
theorem scanRows_some (i : Nat) (l : List (List String)) (u : String) (r : Nat)
    (row : List String) (h : scanRows i l u = some (r, row)) :
    u ≠ "" ∧ ∃ j, j < l.length ∧ r = i + j ∧ l.getD j [] = row ∧ rowUrl row = u := by
  induction l generalizing i with
  | nil => simp [scanRows] at h
  | cons row0 rest ih =>
    rw [scanRows] at h
    cases hrest : scanRows (i + 1) rest u with
    | some v =>
      rw [hrest] at h
      obtain ⟨rv, rowv⟩ := v
      have h' := Option.some.inj h
      rw [Prod.ext_iff] at h'
      obtain ⟨h1, h2⟩ := h'
      subst h1; subst h2
      obtain ⟨hu, j, hj, hr, hg, hru⟩ := ih (i + 1) hrest
      exact ⟨hu, j + 1, by simpa using hj, by omega, by simpa using hg, hru⟩
    | none =>
      rw [hrest] at h
      by_cases hc : u ≠ "" ∧ rowUrl row0 = u
      · rw [if_pos hc] at h
        have h' := Option.some.inj h
        rw [Prod.mk.injEq] at h'
        obtain ⟨h1, h2⟩ := h'
        refine ⟨hc.1, 0, by simp, by omega, ?_, ?_⟩
        · rw [List.getD_cons_zero]; exact h2
        · rw [← h2]; exact hc.2
      · rw [if_neg hc] at h
        exact absurd h (by simp)

/-- `scanRows` misses exactly when the url is empty or no row matches. -/
theorem scanRows_eq_none_iff (i : Nat) (l : List (List String)) (u : String) :
    scanRows i l u = none ↔ (u = "" ∨ ∀ j, j < l.length → rowUrl (l.getD j []) ≠ u) := by
  induction l generalizing i with
  | nil => simp [scanRows]
  | cons row0 rest ih =>
    rw [scanRows]
    cases hrest : scanRows (i + 1) rest u with
    | some v =>
      obtain ⟨rv, rowv⟩ := v
      obtain ⟨hu, j, hj, hr, hg, hru⟩ := scanRows_some _ _ _ _ _ hrest
      apply iff_of_false (by simp)
      rintro (rfl | hall)
      · exact hu rfl
      · exact hall (j + 1) (by simpa using hj) (by rw [List.getD_cons_succ, hg]; exact hru)
    | none =>
      have hnone := (ih (i + 1)).mp hrest
      by_cases hc : u ≠ "" ∧ rowUrl row0 = u
      · rw [if_pos hc]
        apply iff_of_false (by simp)
        rintro (rfl | hall)
        · exact hc.1 rfl
        · exact hall 0 (by simp) (by rw [List.getD_cons_zero]; exact hc.2)
      · rw [if_neg hc]
        simp only [true_iff]
        rcases hnone with rfl | hall
        · exact Or.inl rfl
        · by_cases hu : u = ""
          · exact Or.inl hu
          · refine Or.inr fun j hj => ?_
            cases j with
            | zero =>
              intro hrow0
              exact hc ⟨hu, by simpa using hrow0⟩
            | succ jj => exact hall jj (by simpa using hj)

/-- `scanRows` hits exactly the LAST matching row: `Map.set` overwrites,
so a lookup returns the latest row whose URL cell is `u`. -/
theorem scanRows_eq_some_iff (i : Nat) (l : List (List String)) (u : String) (r : Nat)
    (row : List String) :
    scanRows i l u = some (r, row) ↔
      u ≠ "" ∧ ∃ j, j < l.length ∧ r = i + j ∧ l.getD j [] = row ∧ rowUrl row = u ∧
        ∀ j', j < j' → j' < l.length → rowUrl (l.getD j' []) ≠ u := by
  induction l generalizing i r row with
  | nil => simp [scanRows]
  | cons row0 rest ih =>
    rw [scanRows]
    cases hrest : scanRows (i + 1) rest u with
    | some v =>
      obtain ⟨rv, rowv⟩ := v
      obtain ⟨hu, jv, hjv, hrv, hgv, hruv, htv⟩ := (ih (i + 1) rv rowv).mp hrest
      constructor
      · intro h
        have h' := Option.some.inj h
        rw [Prod.mk.injEq] at h'
        obtain ⟨h1, h2⟩ := h'
        subst h1; subst h2
        refine ⟨hu, jv + 1, by simpa using hjv, by omega,
          by rw [List.getD_cons_succ]; exact hgv, hruv, ?_⟩
        intro j' hj1 hj2
        cases j' with
        | zero => omega
        | succ jj =>
          rw [List.getD_cons_succ]
          exact htv jj (by omega) (by simpa using hj2)
      · rintro ⟨hu2, j, hj, hr, hg, hru, htail⟩
        cases j with
        | zero =>
          exfalso
          apply htail (jv + 1) (by omega) (by simpa using hjv)
          rw [List.getD_cons_succ, hgv]
          exact hruv
        | succ jj =>
          have hres : scanRows (i + 1) rest u = some (r, row) := by
            rw [ih (i + 1) r row]
            refine ⟨hu2, jj, by simpa using hj, by omega,
              by rw [List.getD_cons_succ] at hg; exact hg, hru, ?_⟩
            intro j' hj1 hj2
            have := htail (j' + 1) (by omega) (by simpa using hj2)
            rwa [List.getD_cons_succ] at this
          exact hrest.symm.trans hres
    | none =>
      have hnone := (scanRows_eq_none_iff (i + 1) rest u).mp hrest
      by_cases hc : u ≠ "" ∧ rowUrl row0 = u
      · rw [if_pos hc]
        constructor
        · intro h
          have h' := Option.some.inj h
          rw [Prod.mk.injEq] at h'
          obtain ⟨h1, h2⟩ := h'
          refine ⟨hc.1, 0, by simp, by omega, by rw [List.getD_cons_zero]; exact h2,
            h2 ▸ hc.2, ?_⟩
          intro j' hj1 hj2
          cases j' with
          | zero => omega
          | succ jj =>
            rw [List.getD_cons_succ]
            rcases hnone with rfl | hall
            · exact absurd rfl hc.1
            · exact hall jj (by simpa using hj2)
        · rintro ⟨hu2, j, hj, hr, hg, hru, htail⟩
          cases j with
          | zero =>
            rw [List.getD_cons_zero] at hg
            rw [hr, Nat.add_zero, hg]
          | succ jj =>
            exfalso
            rcases hnone with rfl | hall
            · exact hu2 rfl
            · apply hall jj (by simpa using hj)
              rw [List.getD_cons_succ] at hg
              rw [hg]
              exact hru
      · rw [if_neg hc]
        constructor
        · intro h
          exact absurd h (by simp)
        · rintro ⟨hu2, j, hj, hr, hg, hru, htail⟩
          exfalso
          cases j with
          | zero =>
            rw [List.getD_cons_zero] at hg
            exact hc ⟨hu2, hg ▸ hru⟩
          | succ jj =>
            rcases hnone with rfl | hall
            · exact hu2 rfl
            · apply hall jj (by simpa using hj)
              rw [List.getD_cons_succ] at hg
              rw [hg]
              exact hru

/-- The lookup map hit, phrased on sheet positions: row `r` (1-based,
position `r - 1`) is the last data row whose URL cell is `u`. -/
theorem lookupUrl_eq_some_iff (st : List (List String)) (u : String) (r : Nat)
    (row : List String) :
    lookupUrl st u = some (r, row) ↔
      u ≠ "" ∧ 2 ≤ r ∧ r ≤ st.length ∧ st.getD (r - 1) [] = row ∧ rowUrl row = u ∧
        ∀ p, r ≤ p → p < st.length → rowUrl (st.getD p []) ≠ u := by
  cases st with
  | nil =>
    rw [lookupUrl]
    apply iff_of_false (by simp)
    rintro ⟨-, hr2, hrlen, -⟩
    simp at hrlen
    omega
  | cons h0 rest =>
    rw [lookupUrl, scanRows_eq_some_iff]
    constructor
    · rintro ⟨hu, j, hj, hr, hg, hru, htail⟩
      refine ⟨hu, by omega, by simp only [List.length_cons]; omega, ?_, hru, ?_⟩
      · have hr1 : r - 1 = j + 1 := by omega
        rw [hr1, List.getD_cons_succ]
        exact hg
      · intro p hp1 hp2
        cases p with
        | zero => omega
        | succ pp =>
          rw [List.getD_cons_succ]
          exact htail pp (by omega) (by simpa using hp2)
    · rintro ⟨hu, hr2, hrlen, hg, hru, htail⟩
      simp only [List.length_cons] at hrlen
      refine ⟨hu, r - 2, by omega, by omega, ?_, hru, ?_⟩
      · have hr1 : r - 1 = (r - 2) + 1 := by omega
        rw [hr1, List.getD_cons_succ] at hg
        exact hg
      · intro j' hj1 hj2
        have := htail (j' + 1) (by omega) (by simp only [List.length_cons]; omega)
        rwa [List.getD_cons_succ] at this

/-- The lookup map miss: empty url, or no data row carries `u`. -/
theorem lookupUrl_eq_none_iff (st : List (List String)) (u : String) :
    lookupUrl st u = none ↔
      (u = "" ∨ ∀ p, 1 ≤ p → p < st.length → rowUrl (st.getD p []) ≠ u) := by
  cases st with
  | nil =>
    rw [lookupUrl]
    simp
  | cons h0 rest =>
    rw [lookupUrl, scanRows_eq_none_iff]
    constructor
    · rintro (rfl | hall)
      · exact Or.inl rfl
      · refine Or.inr fun p hp1 hp2 => ?_
        cases p with
        | zero => omega
        | succ pp =>
          rw [List.getD_cons_succ]
          exact hall pp (by simpa using hp2)
    · rintro (rfl | hall)
      · exact Or.inl rfl
      · refine Or.inr fun j hj => ?_
        have := hall (j + 1) (by omega) (by simp only [List.length_cons]; omega)
        rwa [List.getD_cons_succ] at this

theorem applyUpdates_length (now : String) (upds : List (Concert × Nat)) :
    ∀ st : List (List String), (applyUpdates now st upds).length = st.length := by
  induction upds with
  | nil => intro st; rfl
  | cons hd tl ih =>
    intro st
    obtain ⟨c, r⟩ := hd
    simp only [applyUpdates]
    rw [ih, List.length_set]

theorem applyUpdates_getD_of_ne (now : String) (upds : List (Concert × Nat)) (p : Nat)
    (h2 : ∀ cr ∈ upds, 2 ≤ cr.2) (h : ∀ cr ∈ upds, cr.2 ≠ p + 1) :
    ∀ st : List (List String), (applyUpdates now st upds).getD p [] = st.getD p [] := by
  induction upds with
  | nil => intro st; rfl
  | cons hd tl ih =>
    intro st
    obtain ⟨c, r⟩ := hd
    simp only [applyUpdates]
    rw [ih (fun cr hcr => h2 cr (by simp [hcr])) (fun cr hcr => h cr (by simp [hcr]))]
    apply getD_set_ne'
    have hr2 := h2 (c, r) (by simp)
    have hrne := h (c, r) (by simp)
    simp only at hr2 hrne
    omega

theorem applyUpdates_getD_of_mem (now : String) (upds : List (Concert × Nat))
    (c : Concert) (r : Nat)
    (hmem : (c, r) ∈ upds)
    (h2 : ∀ cr ∈ upds, 2 ≤ cr.2)
    (huniq : ∀ c1 c2 : Concert, (c1, r) ∈ upds → (c2, r) ∈ upds → c1 = c2) :
    ∀ st : List (List String), r - 1 < st.length →
      (applyUpdates now st upds).getD (r - 1) [] = serialize6 c ++ [now] := by
  induction upds with
  | nil => simp at hmem
  | cons hd tl ih =>
    intro st hr
    obtain ⟨c0, r0⟩ := hd
    simp only [applyUpdates]
    by_cases htl : (c, r) ∈ tl
    · exact ih htl (fun cr hcr => h2 cr (by simp [hcr]))
        (fun c1 c2 h1 h2' => huniq c1 c2 (by simp [h1]) (by simp [h2']))
        _ (by rwa [List.length_set])
    · have hhd : c0 = c ∧ r0 = r := by
        rcases List.mem_cons.mp hmem with heq | hmem' 
        · have := heq.symm
          rw [Prod.mk.injEq] at this
          exact this
        · exact absurd hmem' htl
      obtain ⟨rfl, rfl⟩ := hhd
      have hr2 : 2 ≤ r0 := by simpa using h2 (c0, r0) (by simp)
      have htlr : ∀ cr ∈ tl, cr.2 ≠ (r0 - 1) + 1 := by
        intro cr hcr
        have hr1 : (r0 - 1) + 1 = r0 := by omega
        rw [hr1]
        intro hcr2
        have hcrmem : (cr.1, r0) ∈ (c0, r0) :: tl := by
          refine List.mem_cons_of_mem _ ?_
          rwa [← hcr2]
        have hc1 : c0 = cr.1 := huniq c0 cr.1 (by simp) hcrmem
        apply htl
        rw [hc1, ← hcr2]
        exact hcr
      rw [applyUpdates_getD_of_ne now tl (r0 - 1) (fun cr hcr => h2 cr (by simp [hcr])) htlr]
      exact getD_set_self' _ _ _ _ hr

/-- Membership in the `new` list. -/
theorem mem_newConcertsOf_iff (st : List (List String)) (cs : List Concert) (c : Concert) :
    c ∈ newConcertsOf st cs ↔ c ∈ cs ∧ lookupUrl st c.url = none := by
  rw [newConcertsOf, List.mem_filter]
  rcases h : lookupUrl st c.url with _ | v <;> simp [h]

/-- Membership in the `updated` list. -/
theorem mem_updatedConcertsOf_iff (st : List (List String)) (cs : List Concert)
    (c : Concert) (r : Nat) :
    (c, r) ∈ updatedConcertsOf st cs ↔
      c ∈ cs ∧ ∃ row, lookupUrl st c.url = some (r, row) ∧ serialize6 c ≠ row.take 6 := by
  rw [updatedConcertsOf, List.mem_filterMap]
  constructor
  · rintro ⟨a, ha, hfa⟩
    cases hla : lookupUrl st a.url with
    | none => rw [hla] at hfa; simp at hfa
    | some v =>
      obtain ⟨rv, datav⟩ := v
      rw [hla] at hfa
      by_cases hser : serialize6 a = datav.take 6
      · simp [hser] at hfa
      · simp only [if_neg hser, Option.some.injEq, Prod.mk.injEq] at hfa
        obtain ⟨rfl, rfl⟩ := hfa
        exact ⟨ha, datav, hla, hser⟩
  · rintro ⟨hc, row, hlook, hser⟩
    exact ⟨c, hc, by simp [hlook, hser]⟩

theorem serialize6_rowUrl (c : Concert) (t : String) :
    rowUrl (serialize6 c ++ [t]) = c.url := rfl

theorem serialize6_take (c : Concert) (t : String) :
    (serialize6 c ++ [t]).take 6 = serialize6 c := rfl

/-- The header block the run appends (one row, or nothing). -/
def hdrOf (st : List (List String)) (cs : List Concert) : List (List String) :=
  if st.isEmpty && (!(newConcertsOf st cs).isEmpty || !(updatedConcertsOf st cs).isEmpty)
    then [sheetHeaders] else []

theorem syncApply_fst (now1 : String) (st : List (List String)) (cs : List Concert) :
    (syncApply now1 st cs).1 =
      applyUpdates now1
        ((st ++ hdrOf st cs) ++
          (newConcertsOf st cs).map (fun c => serialize6 c ++ [now1]))
        (updatedConcertsOf st cs) := by
  rw [syncApply, hdrOf]
  by_cases hH : (st.isEmpty && (!(newConcertsOf st cs).isEmpty ||
      !(updatedConcertsOf st cs).isEmpty)) = true
  · by_cases hN : (newConcertsOf st cs).isEmpty = true
    · have hnil : newConcertsOf st cs = [] := List.isEmpty_iff.mp hN
      simp [hH, hN, hnil]
      split <;> simp
    · simp [hH, hN]
      split <;> simp
  · rw [Bool.not_eq_true] at hH
    by_cases hN : (newConcertsOf st cs).isEmpty = true
    · have hnil : newConcertsOf st cs = [] := List.isEmpty_iff.mp hN
      simp [hH, hN, hnil]
      split <;> simp
    · simp [hH, hN]
      split <;> simp

theorem hdrOf_cases (st : List (List String)) (cs : List Concert) :
    hdrOf st cs = [] ∨ (st = [] ∧ hdrOf st cs = [sheetHeaders]) := by
  rw [hdrOf]
  split
  · next h =>
    rw [Bool.and_eq_true] at h
    exact Or.inr ⟨List.isEmpty_iff.mp h.1, rfl⟩
  · exact Or.inl rfl

/-- After one run, every record's url resolves to a row whose first six
cells are exactly the record's six serialized fields (urls pairwise
distinct and non-empty). -/
theorem lookup_after_run (now1 : String) (st : List (List String)) (cs : List Concert)
    (hnodup : (cs.map (fun c => c.url)).Nodup) (hne : ∀ c' ∈ cs, c'.url ≠ "")
    (c : Concert) (hc : c ∈ cs) :
    ∃ r row, lookupUrl (syncApply now1 st cs).1 c.url = some (r, row) ∧
      row.take 6 = serialize6 c := by
  have injON := List.inj_on_of_nodup_map hnodup
  have hst1 := syncApply_fst now1 st cs
  set N := newConcertsOf st cs with hN
  set U := updatedConcertsOf st cs with hU
  set hdr := hdrOf st cs with hhdr
  set f : Concert → List String := fun c' => serialize6 c' ++ [now1] with hf
  set B := (st ++ hdr) ++ N.map f with hB
  rw [hst1]
  have hUfact : ∀ (c' : Concert) (r' : Nat), (c', r') ∈ U →
      c' ∈ cs ∧ 2 ≤ r' ∧ r' ≤ st.length ∧ rowUrl (st.getD (r' - 1) []) = c'.url := by
    intro c' r' hmem
    rw [hU, mem_updatedConcertsOf_iff] at hmem
    obtain ⟨hcs', row', hlook', hser'⟩ := hmem
    obtain ⟨hu', h2', hlen', hget', hurl', htail'⟩ :=
      (lookupUrl_eq_some_iff st c'.url r' row').mp hlook'
    exact ⟨hcs', h2', hlen', by rw [hget']; exact hurl'⟩
  have hUuniq : ∀ (r' : Nat) (c1 c2 : Concert), (c1, r') ∈ U → (c2, r') ∈ U → c1 = c2 := by
    intro r' c1 c2 h1 h2
    have f1 := hUfact c1 r' h1
    have f2 := hUfact c2 r' h2
    exact injON f1.1 f2.1 (f1.2.2.2.symm.trans f2.2.2.2)
  have hBlen : B.length = st.length + hdr.length + N.length := by
    rw [hB]
    simp only [List.length_append, List.length_map]
  have hst1len : (applyUpdates now1 B U).length = B.length := applyUpdates_length now1 U B
  have hregA : ∀ p, p < st.length →
      ((∃ c', (c', p + 1) ∈ U ∧
          (applyUpdates now1 B U).getD p [] = serialize6 c' ++ [now1]) ∨
        ((∀ cr ∈ U, cr.2 ≠ p + 1) ∧ (applyUpdates now1 B U).getD p [] = st.getD p [])) := by
    intro p hp
    by_cases hex : ∃ c', (c', p + 1) ∈ U
    · obtain ⟨c', hmem⟩ := hex
      left
      refine ⟨c', hmem, ?_⟩
      have hb : (p + 1) - 1 < B.length := by
        simp only [Nat.add_sub_cancel]
        omega
      have := applyUpdates_getD_of_mem now1 U c' (p + 1) hmem
        (fun cr h => (hUfact cr.1 cr.2 h).2.1)
        (fun c1 c2 h1 h2 => hUuniq (p + 1) c1 c2 h1 h2) B hb
      simpa using this
    · right
      have hnot : ∀ cr ∈ U, cr.2 ≠ p + 1 := by
        intro cr hcr heq
        exact hex ⟨cr.1, by rw [← heq]; exact hcr⟩
      refine ⟨hnot, ?_⟩
      rw [applyUpdates_getD_of_ne now1 U p (fun cr h => (hUfact cr.1 cr.2 h).2.1) hnot B]
      rw [hB]
      rw [getD_append_left' _ (by simp only [List.length_append]; omega)]
      rw [getD_append_left' _ hp]
  have hregB : ∀ p, st.length + hdr.length ≤ p → p < B.length →
      (applyUpdates now1 B U).getD p [] = (N.map f).getD (p - (st.length + hdr.length)) [] := by
    intro p hp1 hp2
    have hnot : ∀ cr ∈ U, cr.2 ≠ p + 1 := by
      intro cr hcr heq
      have := (hUfact cr.1 cr.2 hcr).2.2.1
      omega
    rw [applyUpdates_getD_of_ne now1 U p (fun cr h => (hUfact cr.1 cr.2 h).2.1) hnot B]
    rw [hB, getD_append_right' _ (by simp only [List.length_append]; omega)]
    congr 1
    simp only [List.length_append]
  have hmapget : ∀ (idx : Nat) (h : idx < N.length),
      (N.map f).getD idx [] = serialize6 N[idx] ++ [now1] := by
    intro idx h
    rw [List.getD_eq_getElem?_getD, List.getElem?_map, List.getElem?_eq_getElem h]
    rfl
  have hcsnodup : cs.Nodup := List.Nodup.of_map _ hnodup
  have hNnodup : N.Nodup := by
    rw [hN, newConcertsOf]
    exact hcsnodup.filter _
  have hNfact : ∀ x ∈ N, x ∈ cs ∧ lookupUrl st x.url = none := by
    intro x hx
    rw [hN, mem_newConcertsOf_iff] at hx
    exact hx
  cases hlook : lookupUrl st c.url with
  | none =>
    have hcN : c ∈ N := by
      rw [hN, mem_newConcertsOf_iff]
      exact ⟨hc, hlook⟩
    obtain ⟨idx, hidx, hceq⟩ := List.mem_iff_getElem.mp hcN
    have hNne : N ≠ [] := fun h => by rw [h] at hcN; simp at hcN
    have hNe : (newConcertsOf st cs).isEmpty = false := by
      rw [← hN]
      cases hN2 : N with
      | nil => exact absurd hN2 hNne
      | cons a l => simp
    have hpos : 1 ≤ st.length + hdr.length := by
      by_cases hstn : st = []
      · rcases hdrOf_cases st cs with hcase | ⟨-, hcase⟩
        · exfalso
          have hempty : st.isEmpty = true := by rw [hstn]; rfl
          rw [hdrOf, hempty, hNe] at hcase
          simp at hcase
        · have hh1 : hdr.length = 1 := by rw [hhdr, hcase]; rfl
          omega
      · have hh1 : 1 ≤ st.length := List.length_pos.mpr hstn
        omega
    have hp'lt : st.length + hdr.length + idx < B.length := by omega
    have hval : (applyUpdates now1 B U).getD (st.length + hdr.length + idx) [] =
        serialize6 c ++ [now1] := by
      rw [hregB _ (by omega) hp'lt]
      have hs : st.length + hdr.length + idx - (st.length + hdr.length) = idx := by omega
      rw [hs, hmapget idx hidx, hceq]
    refine ⟨st.length + hdr.length + idx + 1, serialize6 c ++ [now1], ?_, serialize6_take c now1⟩
    rw [lookupUrl_eq_some_iff]
    refine ⟨hne c hc, by omega, by rw [hst1len]; omega, ?_, serialize6_rowUrl c now1, ?_⟩
    · simpa using hval
    · intro p hp1 hp2
      rw [hst1len] at hp2
      have hpB : st.length + hdr.length ≤ p := by omega
      rw [hregB p hpB hp2]
      have hidx'lt : p - (st.length + hdr.length) < N.length := by omega
      rw [hmapget _ hidx'lt, serialize6_rowUrl]
      intro hurl
      have hmem' : N[p - (st.length + hdr.length)] ∈ N := List.getElem_mem hidx'lt
      have heqc : N[p - (st.length + hdr.length)] = c :=
        injON (hNfact _ hmem').1 hc hurl
      rw [← hceq] at heqc
      have hIdxEq : p - (st.length + hdr.length) = idx := (hNnodup.getElem_inj_iff).mp heqc
      omega
  | some v =>
    obtain ⟨r0, row0⟩ := v
    obtain ⟨hu0, hr02, hr0len, hget0, hurl0, htail0⟩ :=
      (lookupUrl_eq_some_iff st c.url r0 row0).mp hlook
    have hhdrnil : hdr = [] := by
      rcases hdrOf_cases st cs with hcase | ⟨hstnil, hcase⟩
      · rw [hhdr]
        exact hcase
      · exfalso
        rw [hstnil] at hr0len
        simp at hr0len
        omega
    have htailSt1 : ∀ p, r0 ≤ p → p < B.length →
        rowUrl ((applyUpdates now1 B U).getD p []) ≠ c.url := by
      intro p hp1 hp2
      by_cases hpA : p < st.length
      · rcases hregA p hpA with ⟨c', hmem', hval'⟩ | ⟨-, hval'⟩
        · rw [hval', serialize6_rowUrl]
          intro hurl'
          have hcc : c' = c := injON (hUfact c' (p + 1) hmem').1 hc hurl'
          subst hcc
          rw [hU, mem_updatedConcertsOf_iff] at hmem'
          obtain ⟨-, row', hlook', -⟩ := hmem'
          rw [hlook] at hlook'
          have h2 := Option.some.inj hlook'
          rw [Prod.mk.injEq] at h2
          omega
        · rw [hval']
          exact htail0 p hp1 hpA
      · push_neg at hpA
        have hpB : st.length + hdr.length ≤ p := by
          rw [hhdrnil]
          simpa using hpA
        rw [hregB p hpB hp2]
        have hidx'lt : p - (st.length + hdr.length) < N.length := by omega
        rw [hmapget _ hidx'lt, serialize6_rowUrl]
        intro hurl'
        have hnone := (hNfact N[p - (st.length + hdr.length)] (List.getElem_mem hidx'lt)).2
        rw [hurl', hlook] at hnone
        simp at hnone
    by_cases hser : serialize6 c = row0.take 6
    · have hnotr : ∀ cr ∈ U, cr.2 ≠ (r0 - 1) + 1 := by
        intro cr hcr heq
        have h1 : (r0 - 1) + 1 = r0 := by omega
        rw [h1] at heq
        have hcrmem : (cr.1, r0) ∈ U := by
          rw [← heq]
          exact hcr
        have hfact := hUfact cr.1 r0 hcrmem
        have hcu : cr.1.url = c.url := by
          have hx := hfact.2.2.2
          rw [hget0] at hx
          exact hx.symm.trans hurl0
        have hcc : cr.1 = c := injON hfact.1 hc hcu
        rw [hcc] at hcrmem
        rw [hU, mem_updatedConcertsOf_iff] at hcrmem
        obtain ⟨-, row', hlook', hser'⟩ := hcrmem
        rw [hlook] at hlook'
        have h2 := Option.some.inj hlook'
        rw [Prod.mk.injEq] at h2
        exact hser' (h2.2 ▸ hser)
      have hval : (applyUpdates now1 B U).getD (r0 - 1) [] = row0 := by
        rcases hregA (r0 - 1) (by omega) with ⟨c', hmem', -⟩ | ⟨-, hval'⟩
        · exact absurd rfl (hnotr (c', (r0 - 1) + 1) hmem')
        · rw [hval']
          exact hget0
      refine ⟨r0, row0, ?_, hser.symm⟩
      rw [lookupUrl_eq_some_iff]
      refine ⟨hu0, hr02, by rw [hst1len]; omega, hval, hurl0, ?_⟩
      intro p hp1 hp2
      rw [hst1len] at hp2
      exact htailSt1 p hp1 hp2
    · have hmemU : (c, r0) ∈ U := by
        rw [hU, mem_updatedConcertsOf_iff]
        exact ⟨hc, row0, hlook, hser⟩
      have hval : (applyUpdates now1 B U).getD (r0 - 1) [] = serialize6 c ++ [now1] := by
        refine applyUpdates_getD_of_mem now1 U c r0 hmemU
          (fun cr h => (hUfact cr.1 cr.2 h).2.1)
          (fun c1 c2 h1 h2 => hUuniq r0 c1 c2 h1 h2) B ?_
        omega
      refine ⟨r0, serialize6 c ++ [now1], ?_, serialize6_take c now1⟩
      rw [lookupUrl_eq_some_iff]
      refine ⟨hu0, hr02, by rw [hst1len]; omega, hval, serialize6_rowUrl c now1, ?_⟩
      intro p hp1 hp2
      rw [hst1len] at hp2
      exact htailSt1 p hp1 hp2

/-- A record whose url is the empty string. -/
def exEmptyUrl : Concert :=
  { title := "T", dates := ["1 juni 2025"], location := "L, M", contact := none, url := "" }

/-- C8 counterexample: reconciliation is NOT idempotent for every record
set.  Two records sharing one url (the normal output of one candidate
with two locations) make the second run update a row again, because the
lookup map keeps only the LAST row per url: second-run counts are
`(added, updated) = (0, 1)`, not `(0, 0)`.  A record with an empty url is
re-appended on every run (`row[5]` is falsy, so its row never enters the
map): second-run counts are `(1, 0)`. -/
theorem sync_not_idempotent_duplicate_url :
    (syncApply "t2" (syncApply "t1" [] [exDupA, exDupB]).1 [exDupA, exDupB]).2 = (0, 1) ∧
    (syncApply "t2" (syncApply "t1" [] [exEmptyUrl]).1 [exEmptyUrl]).2 = (1, 0) ∧
    ((0, 1) : Nat × Nat) ≠ (0, 0) ∧ ((1, 0) : Nat × Nat) ≠ (0, 0) := by
  decide

/-- C8 (amended): for record sets whose urls are pairwise distinct and
non-empty, reconciliation is idempotent — after a run whose writes were
applied, a second run over the same record set classifies nothing as new
or updated: `{added: 0, updated: 0}` (each record's six serialized fields
round-trip equal to the row written for its url, whatever the two runs'
timestamps). -/
theorem sync_idempotent_distinct_urls (now1 now2 : String) (st : List (List String))
    (cs : List Concert) (hnodup : (cs.map (fun c => c.url)).Nodup)
    (hne : ∀ c ∈ cs, c.url ≠ "") :
    (syncApply now2 (syncApply now1 st cs).1 cs).2 = (0, 0) := by
  have hL : ∀ c ∈ cs, ∃ r row,
      lookupUrl (syncApply now1 st cs).1 c.url = some (r, row) ∧
        row.take 6 = serialize6 c :=
    fun c hc => lookup_after_run now1 st cs hnodup hne c hc
  have hnew : newConcertsOf (syncApply now1 st cs).1 cs = [] := by
    rw [newConcertsOf, List.filter_eq_nil_iff]
    intro c hc
    obtain ⟨r, row, hlook, -⟩ := hL c hc
    simp [hlook]
  have hupd : updatedConcertsOf (syncApply now1 st cs).1 cs = [] := by
    rw [updatedConcertsOf, List.filterMap_eq_nil_iff]
    intro c hc
    obtain ⟨r, row, hlook, htake⟩ := hL c hc
    rw [hlook]
    simp [htake.symm]
  rw [syncApply]
  simp [hnew, hupd]

/-- Witness for C8's amended theorem: one record, distinct non-empty url,
two runs from an empty store — the second run reports `(0, 0)`. -/
theorem sync_idempotent_instance :
    (syncApply "t2" (syncApply "t1" [] [exRecB]).1 [exRecB]).2 = (0, 0) :=
  sync_idempotent_distinct_urls "t1" "t2" [] [exRecB] (by decide) (by decide)

/-- Witness for C9's amended theorem: the bound holds at a concrete page. -/
theorem normalizer_bounded_instance :
    (extractPageContent ["Echte informatie over dit concert hier"]).length ≤
      maxContentLength + 3 :=
  normalizer_bounded_nonempty.1 ["Echte informatie over dit concert hier"]
